import Mathlib

/-
Verification of the tree-rewriting engine `RelayQueryTransform.traverse`
(src/query/RelayQueryTransform.js).

The engine is generic over an external node model (RelayQuery) and an external
read-only dispatcher (RelayQueryVisitor); those collaborators are not part of
the source under verification and are modelled from the specification, as
marked on each definition.  The algorithm of `traverse` itself is translated
line by line from the source.

Reference identity of JavaScript objects is modelled by structural equality
of `Node` values: every node carries an opaque metadata tag, and on inputs
whose subtrees are pairwise distinct values (in particular whenever the tags
are distinct) structural equality coincides with reference identity.
Deletion (`null`) is modelled by `Option`.
-/

namespace Relay

/-- Modelled from the spec: the external RelayQuery node model (not under
src/).  A node is either a leaf kind that cannot have subselections (for
example a scalar field), or a composite kind (root, fragment, linked field)
holding an ordered sequence of children.  `meta` packs the kind and the
kind-specific metadata (name, arguments, directives), which are opaque to the
engine. -/
inductive Node : Type
  | leaf (meta : Nat)
  | node (meta : Nat) (children : List Node)

/- Structural (boolean) equality on nodes, mutually with lists of nodes.
Needed only to obtain a computable `DecidableEq Node`; `deriving` does not
handle the nested inductive. -/
mutual

def beqN : Node → Node → Bool
  | .leaf a, .leaf b => a == b
  | .node a xs, .node b ys => a == b && beqL xs ys
  | _, _ => false

def beqL : List Node → List Node → Bool
  | [], [] => true
  | x :: xs, y :: ys => beqN x y && beqL xs ys
  | _, _ => false

end

mutual

theorem beqN_iff : ∀ a b : Node, beqN a b = true ↔ a = b
  | .leaf a, .leaf b => by simp [beqN]
  | .node a xs, .node b ys => by
      simp [beqN, Bool.and_eq_true, beqL_iff xs ys]
  | .leaf _, .node _ _ => by simp [beqN]
  | .node _ _, .leaf _ => by simp [beqN]

theorem beqL_iff : ∀ xs ys : List Node, beqL xs ys = true ↔ xs = ys
  | [], [] => by simp [beqL]
  | x :: xs, y :: ys => by
      simp [beqL, Bool.and_eq_true, beqN_iff x y, beqL_iff xs ys]
  | [], _ :: _ => by simp [beqL]
  | _ :: _, [] => by simp [beqL]

end

instance : DecidableEq Node := fun a b =>
  decidable_of_iff (beqN a b = true) (beqN_iff a b)

/-- Modelled from the spec: `canHaveSubselections()` of the external node
model — whether the node kind can have child nodes. -/
def Node.canHaveSubselections : Node → Bool
  | .leaf _ => false
  | .node _ _ => true

/-- Modelled from the spec: the ordered children accessor of the external
node model. -/
def Node.children : Node → List Node
  | .leaf _ => []
  | .node _ cs => cs

/-- Modelled from the spec: `clone(newChildren)` of the external node model —
a new node of the same kind and identity-equivalent metadata but with the
given replacement children.  (The engine never calls it on a leaf.) -/
def Node.clone : Node → List Node → Node
  | .leaf m, _ => .leaf m
  | .node m _, cs => .node m cs

/- Depth of a tree (a leaf has depth 1), mutually with the maximum depth of
a list of trees. -/
mutual

def depth : Node → Nat
  | .leaf _ => 1
  | .node _ cs => depthList cs + 1

def depthList : List Node → Nat
  | [] => 0
  | c :: cs => max (depth c) (depthList cs)

end

/- All subtrees of a tree (including the tree itself), mutually with all
subtrees of members of a list. -/
mutual

def subtrees : Node → List Node
  | .leaf m => [.leaf m]
  | .node m cs => .node m cs :: subtreesList cs

def subtreesList : List Node → List Node
  | [] => []
  | c :: cs => subtrees c ++ subtreesList cs

end

/-- Default node used with `List.getD` where an index is known to be in
bounds. -/
def dfltNode : Node := .leaf 0

variable {Ts α : Type}

/-- Iteration worker for `traverseChildren`: invokes the callback once per
child of the iterated suffix, threading an accumulator (the model of the
JavaScript closure state) and the running index; the full original children
sequence is passed through to every invocation. -/
def traverseChildrenGo (children : List Node) (cb : α → Node → Nat → List Node → α) :
    α → Nat → List Node → α
  | acc, _, [] => acc
  | acc, i, c :: cs => traverseChildrenGo children cb (cb acc c i children) (i + 1) cs

/-- Modelled from the spec: `RelayQueryVisitor.traverseChildren` (not under
src/) — invokes the callback once per child, in the child sequence's original
order, passing `(child, index, originalChildrenSequence)`; it does not skip,
reorder, or deduplicate children and does not recurse itself. -/
def traverseChildren (node : Node) (nextState : Ts)
    (cb : α → Node → Nat → List Node → α) (acc : α) : α :=
  traverseChildrenGo node.children cb acc 0 node.children

/-- The body of the callback that `traverse` passes to `traverseChildren`:

    const prevChild = children[index];
    const nextChild = this.visit(prevChild, nextState);
    if (nextChild !== prevChild) {
      nextChildren = nextChildren || children.slice(0, index);
    }
    if (nextChildren && nextChild) {
      nextChildren.push(nextChild);
    }

`nextChildren` is the accumulator (`none` = the JavaScript variable is still
undefined); note that an empty array is truthy in JavaScript, so a started
accumulator is kept by `nextChildren || …` even when empty. -/
def transformStep (visit : Node → Ts → Option Node) (nextState : Ts)
    (nextChildren : Option (List Node)) (child : Node) (index : Nat)
    (children : List Node) : Option (List Node) :=
  let prevChild := children.getD index child
  let nextChild := visit prevChild nextState
  let acc :=
    if nextChild ≠ some prevChild then some (nextChildren.getD (children.take index))
    else nextChildren
  match acc, nextChild with
  | some l, some c => some (l ++ [c])
  | _, _ => acc

/-- Embedding of `RelayQueryTransform.traverse` (src/query/RelayQueryTransform.js,
lines 64-89).  `visit` stands for the dynamically dispatched `this.visit`:

    if (!node.canHaveSubselections()) { return node; }
    let nextChildren;
    this.traverseChildren(node, nextState, callback, this);
    if (nextChildren) {
      if (!nextChildren.length) { return null; }
      return node.clone(nextChildren);
    }
    return node;
-/
def traverse (visit : Node → Ts → Option Node) (node : Node) (nextState : Ts) :
    Option Node :=
  if !node.canHaveSubselections then some node
  else
    match traverseChildren node nextState (transformStep visit nextState) none with
    | some nextChildren =>
        if nextChildren.isEmpty then none else some (node.clone nextChildren)
    | none => some node

/-- Instrumented iteration worker: same accumulator discipline as
`transformStep`, additionally summing the allocation counts reported by the
child visits. -/
def traverseCntGo (visit : Node → Ts → Option Node × Nat) (nextState : Ts)
    (children : List Node) :
    Option (List Node) × Nat → Nat → List Node → Option (List Node) × Nat
  | st, _, [] => st
  | (acc0, k), i, c :: cs =>
      let prevChild := children.getD i c
      let r := visit prevChild nextState
      let acc1 :=
        if r.1 ≠ some prevChild then some (acc0.getD (children.take i)) else acc0
      let acc2 :=
        match acc1, r.1 with
        | some l, some c2 => some (l ++ [c2])
        | _, _ => acc1
      traverseCntGo visit nextState children (acc2, k + r.2) (i + 1) cs

/-- Instrumented `traverse`: identical control flow, but each visit result
carries the number of nodes it allocated via `clone`, and the call adds 1
exactly when it invokes `node.clone` itself.  The second component therefore
counts the `clone` calls performed by the whole rewrite. -/
def traverseCnt (visit : Node → Ts → Option Node × Nat) (node : Node)
    (nextState : Ts) : Option Node × Nat :=
  if !node.canHaveSubselections then (some node, 0)
  else
    match traverseCntGo visit nextState node.children (none, 0) 0 node.children with
    | (some nextChildren, k) =>
        if nextChildren.isEmpty then (none, k) else (some (node.clone nextChildren), k + 1)
    | (none, k) => (some node, k)

/-- Modelled from the spec: the `visit` entry point of the engine (inherited
from `RelayQueryVisitor`, not under src/) with an arbitrary per-kind handler
layer `h`.  `visit(node, state)` dispatches to the handler for the node's
kind; the handler receives the node, the state, and may use the result of
`traverse` on the node (the default handler returns it verbatim).  The fuel
argument is the stack allowance: one unit per `visit`/`traverse` level. -/
def visitWith (h : Node → Ts → Option Node → Option Node) :
    Nat → Ts → Node → Option Node
  | 0, _, _ => none
  | fuel + 1, s, n => h n s (traverse (fun c t => visitWith h fuel t c) n s)

/-- Modelled from the spec: the default no-op transform — every handler
delegates to `traverse` and returns its result verbatim. -/
def visitDef : Nat → Ts → Node → Option Node :=
  visitWith (fun _ _ r => r)

/-- Modelled from the spec: the transform whose handlers are the default
ones except at the node `t`, whose handler short-circuits and returns the
replacement `rep` (together with the number of nodes the handler allocated)
without visiting `t`'s children.  Instrumented with the `clone` count. -/
def transformExceptCnt (t : Node) (rep : Option Node × Nat) :
    Nat → Ts → Node → Option Node × Nat
  | 0, _, _ => (none, 0)
  | fuel + 1, s, n =>
      if n = t then rep
      else traverseCnt (fun c u => transformExceptCnt t rep fuel u c) n s

/-- The node `t` sits at path `p` in the tree, and occurs in no sibling
subtree along that path, and no strict ancestor on the path equals `t`.
This is the shape of a rewrite that changes exactly one descendant. -/
def OnlyAt (t : Node) : List Nat → Node → Prop
  | [], n => n = t
  | _ :: _, .leaf _ => False
  | i :: rest, .node m cs =>
      Node.node m cs ≠ t ∧ i < cs.length ∧ OnlyAt t rest (cs.getD i dfltNode) ∧
        ∀ j, j < cs.length → j ≠ i → t ∉ subtrees (cs.getD j dfltNode)

/-- Specification-level functional replacement: substitute `rep` for the
node at path `p`, keeping every off-path subtree as the very same value. -/
def replacePath (rep : Node) : List Nat → Node → Node
  | [], _ => rep
  | _ :: _, .leaf m => .leaf m
  | i :: rest, .node m cs =>
      .node m (cs.set i (replacePath rep rest (cs.getD i dfltNode)))

/-- A heap of JavaScript arrays of nodes: a reference is an index into the
store.  Nodes themselves are immutable values; the arrays are the only
mutable objects the source touches (`children`, `nextChildren`). -/
def storeGet (σ : List (List Node)) (r : Nat) : List Node :=
  σ.getD r []

/-- The child loop of `traverse` with explicit array mutation, mirroring the
JavaScript operational behaviour: `children.slice(0, index)` reads the
children array and allocates a fresh array; `nextChildren.push(nextChild)`
mutates the accumulator array in place.  `rc` is the reference of the
children array; the accumulator is a reference once started. -/
def traverseStoreGo (visit : Node → Ts → Option Node) (nextState : Ts) (rc : Nat) :
    List (List Node) × Option Nat → Nat → List Node → List (List Node) × Option Nat
  | st, _, [] => st
  | (σ, accRef), i, c :: cs =>
      let children := storeGet σ rc
      let prevChild := children.getD i c
      let nextChild := visit prevChild nextState
      let st1 :=
        if nextChild ≠ some prevChild then
          match accRef with
          | some r => (σ, some r)
          | none => (σ ++ [children.take i], some σ.length)
        else (σ, accRef)
      let st2 :=
        match st1.2, nextChild with
        | some r, some c2 => (st1.1.set r (storeGet st1.1 r ++ [c2]), st1.2)
        | _, _ => st1
      traverseStoreGo visit nextState rc st2 (i + 1) cs

/-- Run the child loop of `traverse` against the array store, starting from
the children array at reference `rc`. -/
def traverseStore (visit : Node → Ts → Option Node) (nextState : Ts) (rc : Nat)
    (σ : List (List Node)) : List (List Node) × Option Nat :=
  traverseStoreGo visit nextState rc (σ, none) 0 (storeGet σ rc)

/-- Dereference an optional array reference. -/
def accValue (σ : List (List Node)) (a : Option Nat) : Option (List Node) :=
  a.map (storeGet σ)

/-- Correspondence between the store-level accumulator (a reference to a
freshly allocated array) and the pure accumulator value: the reference, when
started, is fresh (beyond the pre-existing part of the store, of length
`lo`), in bounds, and holds exactly the pure accumulator's list. -/
def AccInv (lo : Nat) (σ : List (List Node)) : Option Nat → Option (List Node) → Prop
  | none, none => True
  | some a, some l => lo ≤ a ∧ a < σ.length ∧ storeGet σ a = l
  | _, _ => False

/- List index bookkeeping used by the loop lemmas. -/

theorem getD_of_drop {β : Type} (d : β) :
    ∀ (i : Nat) (l : List β) (c : β) (cs : List β), l.drop i = c :: cs → l.getD i d = c := by
  intro i
  induction i with
  | zero => intro l c cs h; rw [List.drop_zero] at h; subst h; rfl
  | succ i ih =>
      intro l c cs h
      cases l with
      | nil => simp at h
      | cons x xs => exact ih xs c cs h

theorem getElem?_of_drop {β : Type} :
    ∀ (i : Nat) (l : List β) (c : β) (cs : List β), l.drop i = c :: cs → l[i]? = some c := by
  intro i
  induction i with
  | zero => intro l c cs h; rw [List.drop_zero] at h; subst h; simp
  | succ i ih =>
      intro l c cs h
      cases l with
      | nil => simp at h
      | cons x xs => simpa using ih xs c cs h

theorem drop_succ_of_drop {β : Type} :
    ∀ (i : Nat) (l : List β) (c : β) (cs : List β), l.drop i = c :: cs → l.drop (i + 1) = cs := by
  intro i
  induction i with
  | zero => intro l c cs h; rw [List.drop_zero] at h; subst h; rfl
  | succ i ih =>
      intro l c cs h
      cases l with
      | nil => simp at h
      | cons x xs => exact ih xs c cs h

theorem take_succ_of_drop {β : Type} :
    ∀ (i : Nat) (l : List β) (c : β) (cs : List β),
      l.drop i = c :: cs → l.take (i + 1) = l.take i ++ [c] := by
  intro i
  induction i with
  | zero => intro l c cs h; rw [List.drop_zero] at h; subst h; rfl
  | succ i ih =>
      intro l c cs h
      cases l with
      | nil => simp at h
      | cons x xs => simp [List.take_succ_cons, ih xs c cs h]

theorem getD_mem {β : Type} (d : β) :
    ∀ (l : List β) (i : Nat), i < l.length → l.getD i d ∈ l := by
  intro l
  induction l with
  | nil => intro i h; simp at h
  | cons x xs ih =>
      intro i h
      cases i with
      | zero => simp
      | succ i =>
          right
          exact ih i (by simpa using h)

theorem filterMap_id_of_keeps {β : Type} (f : β → Option β) :
    ∀ l : List β, (∀ c ∈ l, f c = some c) → l.filterMap f = l := by
  intro l
  induction l with
  | nil => intro _; rfl
  | cons x xs ih =>
      intro h
      have hx : f x = some x := h x (by simp)
      simp [List.filterMap_cons, hx, ih (fun c hc => h c (by simp [hc]))]

/- Invariants of the child loop of `traverse`.  The loop over the segment of
`children` that starts at index `i` and has length `m` satisfies: a started
accumulator collects exactly the surviving visit results (`go_acc_some`); an
unstarted accumulator stays unstarted while every child is returned
unchanged (`go_none_of_keeps`); and once some child of the segment changes,
the final accumulator is the copied prefix followed by the surviving visit
results of the segment (`go_none_of_changed`). -/

theorem go_acc_some (visit : Node → Ts → Option Node) (s : Ts) (children : List Node) :
    ∀ (m i : Nat) (l : List Node),
      traverseChildrenGo children (transformStep visit s) (some l) i
          ((children.drop i).take m)
        = some (l ++ ((children.drop i).take m).filterMap (fun c => visit c s)) := by
  intro m
  induction m with
  | zero => intro i l; simp [traverseChildrenGo]
  | succ m ih =>
      intro i l
      cases hd : children.drop i with
      | nil => simp [traverseChildrenGo]
      | cons c tail =>
          have hget : children[i]? = some c := getElem?_of_drop i children c tail hd
          have hds : children.drop (i + 1) = tail := drop_succ_of_drop i children c tail hd
          rw [List.take_succ_cons, traverseChildrenGo]
          have hstep : ∀ r : Option Node, visit c s = r →
              transformStep visit s (some l) c i children = some (l ++ r.toList) := by
            intro r hr
            cases r with
            | none => simp [transformStep, hget, hr]
            | some c2 =>
                by_cases hc : c2 = c
                · subst hc; simp [transformStep, hget, hr]
                · simp [transformStep, hget, hr, hc]
          rw [hstep (visit c s) rfl]
          have htail : tail.take m = (children.drop (i + 1)).take m := by rw [hds]
          rw [htail, ih (i + 1) (l ++ (visit c s).toList)]
          cases hv : visit c s with
          | none => simp [List.filterMap_cons, hv]
          | some c2 => simp [List.filterMap_cons, hv]

theorem go_none_of_keeps (visit : Node → Ts → Option Node) (s : Ts) (children : List Node) :
    ∀ (m i : Nat),
      (∀ c ∈ (children.drop i).take m, visit c s = some c) →
      traverseChildrenGo children (transformStep visit s) none i
          ((children.drop i).take m)
        = none := by
  intro m
  induction m with
  | zero => intro i _; simp [traverseChildrenGo]
  | succ m ih =>
      intro i hkeep
      cases hd : children.drop i with
      | nil => simp [traverseChildrenGo]
      | cons c tail =>
          have hget : children[i]? = some c := getElem?_of_drop i children c tail hd
          have hds : children.drop (i + 1) = tail := drop_succ_of_drop i children c tail hd
          rw [hd] at hkeep
          have hv : visit c s = some c := hkeep c (by simp)
          rw [List.take_succ_cons, traverseChildrenGo]
          have hstep : transformStep visit s none c i children = none := by
            simp [transformStep, hget, hv]
          rw [hstep]
          have htail : tail.take m = (children.drop (i + 1)).take m := by rw [hds]
          rw [htail]
          exact ih (i + 1) (by
            rw [hds]
            intro x hx
            exact hkeep x (by simp [hx]))

theorem go_none_of_changed (visit : Node → Ts → Option Node) (s : Ts) (children : List Node) :
    ∀ (m i : Nat),
      ¬ (∀ c ∈ (children.drop i).take m, visit c s = some c) →
      traverseChildrenGo children (transformStep visit s) none i
          ((children.drop i).take m)
        = some (children.take i ++ ((children.drop i).take m).filterMap (fun c => visit c s)) := by
  intro m
  induction m with
  | zero => intro i h; exact absurd (by simp) h
  | succ m ih =>
      intro i hch
      cases hd : children.drop i with
      | nil => rw [hd] at hch; exact absurd (by simp) hch
      | cons c tail =>
          have hget : children[i]? = some c := getElem?_of_drop i children c tail hd
          have hds : children.drop (i + 1) = tail := drop_succ_of_drop i children c tail hd
          have htk : children.take (i + 1) = children.take i ++ [c] :=
            take_succ_of_drop i children c tail hd
          have htail : tail.take m = (children.drop (i + 1)).take m := by rw [hds]
          rw [hd] at hch
          rw [List.take_succ_cons, traverseChildrenGo]
          by_cases hv : visit c s = some c
          · have hstep : transformStep visit s none c i children = none := by
              simp [transformStep, hget, hv]
            rw [hstep, htail]
            have hch2 : ¬ (∀ x ∈ (children.drop (i + 1)).take m, visit x s = some x) := by
              rw [hds]
              intro hall
              exact hch (by
                intro x hx
                rcases List.mem_cons.1 hx with hx0 | hx1
                · subst hx0; exact hv
                · exact hall x hx1)
            rw [ih (i + 1) hch2, htk]
            simp [List.filterMap_cons, hv]
          · have hstep : ∀ r : Option Node, visit c s = r →
                transformStep visit s none c i children = some (children.take i ++ r.toList) := by
              intro r hr
              cases r with
              | none => simp [transformStep, hget, hr]
              | some c2 =>
                  have hc : c2 ≠ c := by
                    intro h0
                    subst h0
                    exact hv hr
                  simp [transformStep, hget, hr, hc]
            rw [hstep (visit c s) rfl, htail, go_acc_some visit s children m (i + 1)]
            cases hr : visit c s with
            | none => simp [List.filterMap_cons, hr]
            | some c2 => simp [List.filterMap_cons, hr]

/- Closed-form evaluation of `traverse`. -/

theorem filterMap_congr_mem {β γ : Type} (f g : β → Option γ) :
    ∀ l : List β, (∀ c ∈ l, f c = g c) → l.filterMap f = l.filterMap g := by
  intro l
  induction l with
  | nil => intro _; rfl
  | cons x xs ih =>
      intro h
      simp only [List.filterMap_cons, h x (by simp)]
      rw [ih (fun c hc => h c (by simp [hc]))]

theorem map_congr_mem {β γ : Type} (f g : β → γ) :
    ∀ l : List β, (∀ c ∈ l, f c = g c) → l.map f = l.map g := by
  intro l
  induction l with
  | nil => intro _; rfl
  | cons x xs ih =>
      intro h
      simp only [List.map_cons, h x (by simp)]
      rw [ih (fun c hc => h c (by simp [hc]))]

theorem traverse_leaf (visit : Node → Ts → Option Node) (m : Nat) (s : Ts) :
    traverse visit (Node.leaf m) s = some (Node.leaf m) := rfl

theorem traverse_node_eq (visit : Node → Ts → Option Node) (m : Nat) (cs : List Node)
    (s : Ts) :
    traverse visit (Node.node m cs) s =
      if ∀ c ∈ cs, visit c s = some c then some (Node.node m cs)
      else if cs.filterMap (fun c => visit c s) = [] then none
      else some (Node.node m (cs.filterMap (fun c => visit c s))) := by
  have hcs : (cs.drop 0).take cs.length = cs := by simp
  by_cases h : ∀ c ∈ cs, visit c s = some c
  · have hgo := go_none_of_keeps visit s cs cs.length 0 (by rw [hcs]; exact h)
    rw [hcs] at hgo
    rw [if_pos h]
    simp [traverse, traverseChildren, Node.canHaveSubselections, Node.children, hgo]
  · have hgo := go_none_of_changed visit s cs cs.length 0 (by rw [hcs]; exact h)
    rw [hcs] at hgo
    simp only [List.take_zero, List.nil_append] at hgo
    rw [if_neg h]
    by_cases hfm : cs.filterMap (fun c => visit c s) = []
    · rw [if_pos hfm]
      simp [traverse, traverseChildren, Node.canHaveSubselections, Node.children,
        hgo, hfm]
    · rw [if_neg hfm]
      simp [traverse, traverseChildren, Node.canHaveSubselections, Node.children,
        Node.clone, hgo, hfm]

/- The instrumented loop equals the plain loop paired with the sum of the
allocation counts reported by the visited children. -/

theorem cntGo_eq (visit : Node → Ts → Option Node × Nat) (s : Ts) (children : List Node) :
    ∀ (m i : Nat) (acc : Option (List Node)) (k : Nat),
      traverseCntGo visit s children (acc, k) i ((children.drop i).take m)
        = (traverseChildrenGo children (transformStep (fun a t => (visit a t).1) s) acc i
             ((children.drop i).take m),
           k + (((children.drop i).take m).map (fun c => (visit c s).2)).sum) := by
  intro m
  induction m with
  | zero => intro i acc k; simp [traverseCntGo, traverseChildrenGo]
  | succ m ih =>
      intro i acc k
      cases hd : children.drop i with
      | nil => simp [traverseCntGo, traverseChildrenGo]
      | cons c tail =>
          have hds : children.drop (i + 1) = tail := drop_succ_of_drop i children c tail hd
          have hget : children[i]? = some c := getElem?_of_drop i children c tail hd
          rw [List.take_succ_cons, traverseCntGo, traverseChildrenGo]
          have htail : tail.take m = (children.drop (i + 1)).take m := by rw [hds]
          rw [htail, ih (i + 1)]
          refine Prod.ext ?_ ?_
          · rfl
          · simp [hget, Nat.add_assoc]

theorem traverseCnt_leaf (visit : Node → Ts → Option Node × Nat) (m : Nat) (s : Ts) :
    traverseCnt visit (Node.leaf m) s = (some (Node.leaf m), 0) := rfl

theorem traverseCnt_node_eq (visit : Node → Ts → Option Node × Nat) (m : Nat)
    (cs : List Node) (s : Ts) :
    traverseCnt visit (Node.node m cs) s =
      if ∀ c ∈ cs, (visit c s).1 = some c then
        (some (Node.node m cs), (cs.map (fun c => (visit c s).2)).sum)
      else if cs.filterMap (fun c => (visit c s).1) = [] then
        (none, (cs.map (fun c => (visit c s).2)).sum)
      else
        (some (Node.node m (cs.filterMap (fun c => (visit c s).1))),
         (cs.map (fun c => (visit c s).2)).sum + 1) := by
  have hcs : (cs.drop 0).take cs.length = cs := by simp
  have hgo := cntGo_eq visit s cs cs.length 0 none 0
  rw [hcs] at hgo
  by_cases h : ∀ c ∈ cs, (visit c s).1 = some c
  · have hgo2 := go_none_of_keeps (fun a t => (visit a t).1) s cs cs.length 0
      (by rw [hcs]; exact h)
    rw [hcs] at hgo2
    rw [if_pos h]
    simp [traverseCnt, Node.canHaveSubselections, Node.children, hgo, hgo2]
  · have hgo2 := go_none_of_changed (fun a t => (visit a t).1) s cs cs.length 0
      (by rw [hcs]; exact h)
    rw [hcs] at hgo2
    simp only [List.take_zero, List.nil_append] at hgo2
    rw [if_neg h]
    by_cases hfm : cs.filterMap (fun c => (visit c s).1) = []
    · rw [if_pos hfm]
      simp [traverseCnt, Node.canHaveSubselections, Node.children, hgo, hgo2, hfm]
    · rw [if_neg hfm]
      simp [traverseCnt, Node.canHaveSubselections, Node.children, Node.clone,
        hgo, hgo2, hfm]

/- Congruence: `traverse` consults its visit function only on the direct
children of the node, at the state it was given. -/

theorem traverse_congr (v w : Node → Ts → Option Node) (s : Ts) (n : Node)
    (h : ∀ c ∈ n.children, v c s = w c s) :
    traverse v n s = traverse w n s := by
  cases n with
  | leaf m => rfl
  | node m cs =>
      have hcs : ∀ c ∈ cs, v c s = w c s := by
        intro c hc; exact h c (by simpa [Node.children] using hc)
      rw [traverse_node_eq, traverse_node_eq]
      have hfm := filterMap_congr_mem (fun c => v c s) (fun c => w c s) cs hcs
      have hiff : (∀ c ∈ cs, v c s = some c) ↔ (∀ c ∈ cs, w c s = some c) := by
        constructor
        · intro hh c hc; rw [← hcs c hc]; exact hh c hc
        · intro hh c hc; rw [hcs c hc]; exact hh c hc
      rw [hfm, if_congr hiff rfl rfl]

theorem traverseCnt_congr (v w : Node → Ts → Option Node × Nat) (s : Ts) (n : Node)
    (h : ∀ c ∈ n.children, v c s = w c s) :
    traverseCnt v n s = traverseCnt w n s := by
  cases n with
  | leaf m => rfl
  | node m cs =>
      have hcs : ∀ c ∈ cs, v c s = w c s := by
        intro c hc; exact h c (by simpa [Node.children] using hc)
      rw [traverseCnt_node_eq, traverseCnt_node_eq]
      have hfm := filterMap_congr_mem (fun c => (v c s).1) (fun c => (w c s).1) cs
        (fun c hc => by simp only [hcs c hc])
      have hsum := map_congr_mem (fun c => (v c s).2) (fun c => (w c s).2) cs
        (fun c hc => by simp only [hcs c hc])
      have hiff : (∀ c ∈ cs, (v c s).1 = some c) ↔ (∀ c ∈ cs, (w c s).1 = some c) := by
        constructor
        · intro hh c hc; rw [← hcs c hc]; exact hh c hc
        · intro hh c hc; rw [hcs c hc]; exact hh c hc
      rw [hfm, hsum, if_congr hiff rfl rfl]

/- Depth and subtree facts. -/

theorem one_le_depth : ∀ n : Node, 1 ≤ depth n := by
  intro n
  cases n with
  | leaf m => simp [depth]
  | node m cs => simp [depth]

theorem depth_le_depthList :
    ∀ (cs : List Node) (c : Node), c ∈ cs → depth c ≤ depthList cs := by
  intro cs
  induction cs with
  | nil => intro c h; simp at h
  | cons x xs ih =>
      intro c h
      simp only [depthList]
      rcases List.mem_cons.1 h with h0 | h1
      · subst h0; exact Nat.le_max_left _ _
      · exact le_trans (ih c h1) (Nat.le_max_right _ _)

theorem self_mem_subtrees : ∀ n : Node, n ∈ subtrees n := by
  intro n
  cases n with
  | leaf m => simp [subtrees]
  | node m cs => simp [subtrees]

theorem mem_subtreesList_of :
    ∀ (cs : List Node) (c : Node), c ∈ cs → ∀ x ∈ subtrees c, x ∈ subtreesList cs := by
  intro cs
  induction cs with
  | nil => intro c hc; simp at hc
  | cons y ys ih =>
      intro c hc x hx
      simp only [subtreesList, List.mem_append]
      rcases List.mem_cons.1 hc with h0 | h1
      · subst h0; exact Or.inl hx
      · exact Or.inr (ih c h1 x hx)

theorem mem_subtrees_node (m : Nat) (cs : List Node) (c x : Node) (hc : c ∈ cs)
    (hx : x ∈ subtrees c) : x ∈ subtrees (Node.node m cs) := by
  simp only [subtrees, List.mem_cons]
  exact Or.inr (mem_subtreesList_of cs c hc x hx)

theorem not_mem_subtrees_child (t : Node) (m : Nat) (cs : List Node)
    (h : t ∉ subtrees (Node.node m cs)) (c : Node) (hc : c ∈ cs) : t ∉ subtrees c :=
  fun hx => h (mem_subtrees_node m cs c t hc hx)

theorem ne_of_not_mem_subtrees (t n : Node) (h : t ∉ subtrees n) : n ≠ t := by
  intro he
  exact h (by rw [he]; exact self_mem_subtrees t)

/- The default no-op transform returns every node unchanged once the fuel
covers the depth of the tree. -/

theorem visitWith_succ (h : Node → Ts → Option Node → Option Node) (f : Nat) (s : Ts)
    (n : Node) :
    visitWith h (f + 1) s n = h n s (traverse (fun c t => visitWith h f t c) n s) := rfl

theorem visitDef_succ (f : Nat) (s : Ts) (n : Node) :
    visitDef (f + 1) s n = traverse (fun c t => visitDef f t c) n s := rfl

theorem visitDef_id :
    ∀ (b : Nat) (n : Node), depth n ≤ b →
      ∀ (s : Ts) (fuel : Nat), depth n ≤ fuel → visitDef fuel s n = some n := by
  intro b
  induction b with
  | zero =>
      intro n hb
      exact absurd hb (by have := one_le_depth n; omega)
  | succ b ih =>
      intro n hb s fuel hf
      have h1 := one_le_depth n
      cases fuel with
      | zero => exact absurd hf (by omega)
      | succ f =>
          rw [visitDef_succ]
          cases n with
          | leaf m => exact traverse_leaf _ m s
          | node m cs =>
              simp only [depth] at hb hf h1
              have hkeep : ∀ c ∈ cs, visitDef f s c = some c := by
                intro c hc
                have hd := depth_le_depthList cs c hc
                exact ih c (by omega) s f (by omega)
              simp only [traverse_node_eq]
              rw [if_pos hkeep]

/- Fuel above the depth of the tree does not change the result of any
handler-driven transform: one stack frame per level suffices. -/

theorem visitWith_stable_aux :
    ∀ (b : Nat) (n : Node), depth n ≤ b →
      ∀ (h : Node → Ts → Option Node → Option Node) (s : Ts) (f g : Nat),
        depth n ≤ f → depth n ≤ g → visitWith h f s n = visitWith h g s n := by
  intro b
  induction b with
  | zero =>
      intro n hb
      exact absurd hb (by have := one_le_depth n; omega)
  | succ b ih =>
      intro n hb h s f g hf hg
      have h1 := one_le_depth n
      cases f with
      | zero => exact absurd hf (by omega)
      | succ f =>
          cases g with
          | zero => exact absurd hg (by omega)
          | succ g =>
              rw [visitWith_succ, visitWith_succ]
              congr 1
              apply traverse_congr
              intro c hc
              cases n with
              | leaf m => simp [Node.children] at hc
              | node m cs =>
                  have hcm : c ∈ cs := by simpa [Node.children] using hc
                  have hd := depth_le_depthList cs c hcm
                  simp only [depth] at hb hf hg
                  exact ih c (by omega) h s f g (by omega) (by omega)

/- A transform that overrides the handler at a single node behaves as the
identity (with no allocation) on any subtree that does not contain that
node. -/

theorem transformExceptCnt_succ (t : Node) (rep : Option Node × Nat) (f : Nat)
    (s : Ts) (n : Node) :
    transformExceptCnt t rep (f + 1) s n =
      if n = t then rep
      else traverseCnt (fun c u => transformExceptCnt t rep f u c) n s := rfl

theorem transformExceptCnt_id :
    ∀ (b : Nat) (n : Node), depth n ≤ b →
      ∀ (t : Node) (rep : Option Node × Nat) (s : Ts) (fuel : Nat),
        depth n ≤ fuel → t ∉ subtrees n →
        transformExceptCnt t rep fuel s n = (some n, 0) := by
  intro b
  induction b with
  | zero =>
      intro n hb
      exact absurd hb (by have := one_le_depth n; omega)
  | succ b ih =>
      intro n hb t rep s fuel hf hmem
      have h1 := one_le_depth n
      cases fuel with
      | zero => exact absurd hf (by omega)
      | succ f =>
          rw [transformExceptCnt_succ, if_neg (ne_of_not_mem_subtrees t n hmem)]
          cases n with
          | leaf m => exact traverseCnt_leaf _ m s
          | node m cs =>
              simp only [depth] at hb hf
              have hsub : ∀ c ∈ cs, transformExceptCnt t rep f s c = (some c, 0) := by
                intro c hc
                have hd := depth_le_depthList cs c hc
                exact ih c (by omega) t rep s f (by omega)
                  (not_mem_subtrees_child t m cs hmem c hc)
              have hkeep : ∀ c ∈ cs, (transformExceptCnt t rep f s c).1 = some c := by
                intro c hc; rw [hsub c hc]
              have hsum :
                  (cs.map (fun c => (transformExceptCnt t rep f s c).2)).sum = 0 := by
                apply List.sum_eq_zero
                intro x hx
                rcases List.mem_map.1 hx with ⟨c, hc, rfl⟩
                rw [hsub c hc]
              simp only [traverseCnt_node_eq]
              rw [if_pos hkeep, hsum]

/- Indexed list surgery used by the single-point-rewrite analysis. -/

theorem exists_getD_of_mem {β : Type} (d : β) :
    ∀ (l : List β) (c : β), c ∈ l → ∃ j, j < l.length ∧ l.getD j d = c := by
  intro l
  induction l with
  | nil => intro c hc; simp at hc
  | cons x xs ih =>
      intro c hc
      rcases List.mem_cons.1 hc with h0 | h1
      · exact ⟨0, by simp, by simp [h0]⟩
      · rcases ih c h1 with ⟨j, hj, hg⟩
        exact ⟨j + 1, by simpa using hj, by simpa using hg⟩

theorem getD_set_self {β : Type} (x d : β) :
    ∀ (l : List β) (i : Nat), i < l.length → (l.set i x).getD i d = x := by
  intro l
  induction l with
  | nil => intro i hi; simp at hi
  | cons a as ih =>
      intro i hi
      cases i with
      | zero => simp
      | succ i => simpa using ih i (by simpa using hi)

theorem set_ne_of_getD {β : Type} (x d : β) (l : List β) (i : Nat) (hi : i < l.length)
    (hx : x ≠ l.getD i d) : l.set i x ≠ l := by
  intro he
  apply hx
  rw [← getD_set_self x d l i hi, he]

theorem filterMap_eq_set {β : Type} (f : β → Option β) (d : β) :
    ∀ (l : List β) (i : Nat) (x : β), i < l.length →
      (∀ j, j < l.length → j ≠ i → f (l.getD j d) = some (l.getD j d)) →
      f (l.getD i d) = some x →
      l.filterMap f = l.set i x := by
  intro l
  induction l with
  | nil => intro i x hi; simp at hi
  | cons a as ih =>
      intro i x hi hkeep hx
      cases i with
      | zero =>
          have hfa : f a = some x := by simpa using hx
          have hrest : as.filterMap f = as := by
            apply filterMap_id_of_keeps
            intro c hc
            rcases exists_getD_of_mem d as c hc with ⟨j, hj, hg⟩
            have hh := hkeep (j + 1) (by simpa using hj) (by simp)
            rw [← hg]
            simpa using hh
          simp [List.filterMap_cons, hfa, hrest]
      | succ i =>
          have hfa : f a = some a := by simpa using hkeep 0 (by simp) (by simp)
          have hrec := ih i x (by simpa using hi)
            (fun j hj hne => by
              simpa using hkeep (j + 1) (by simpa using hj) (by simpa using hne))
            (by simpa using hx)
          simp [List.filterMap_cons, hfa, hrec]

theorem map_sum_eq {β : Type} (g : β → Nat) (d : β) :
    ∀ (l : List β) (i : Nat) (k : Nat), i < l.length →
      (∀ j, j < l.length → j ≠ i → g (l.getD j d) = 0) →
      g (l.getD i d) = k →
      (l.map g).sum = k := by
  intro l
  induction l with
  | nil => intro i k hi; simp at hi
  | cons a as ih =>
      intro i k hi hzero hk
      cases i with
      | zero =>
          have hga : g a = k := by simpa using hk
          have hrest : (as.map g).sum = 0 := by
            apply List.sum_eq_zero
            intro x hx
            rcases List.mem_map.1 hx with ⟨c, hc, rfl⟩
            rcases exists_getD_of_mem d as c hc with ⟨j, hj, hg2⟩
            rw [← hg2]
            simpa using hzero (j + 1) (by simpa using hj) (by simp)
          simp [hga, hrest]
      | succ i =>
          have hga : g a = 0 := by simpa using hzero 0 (by simp) (by simp)
          have hrec := ih i k (by simpa using hi)
            (fun j hj hne => by
              simpa using hzero (j + 1) (by simpa using hj) (by simpa using hne))
            (by simpa using hk)
          simp [hga, hrec]

/- Single-point rewrite: a handler set that is the default everywhere except
at one node `t` (sitting at path `p`, and nowhere else) rewrites the tree to
the functional replacement at `p`, cloning exactly one ancestor per level of
the path — `p.length` clones in total — and sharing every off-path sibling
subtree as the very same value. -/

theorem transformExcept_sharing_aux :
    ∀ (p : List Nat) (n t rep : Node) (s : Ts) (fuel : Nat),
      p ≠ [] → OnlyAt t p n → rep ≠ t → depth n ≤ fuel →
      transformExceptCnt t (some rep, 0) fuel s n
          = (some (replacePath rep p n), p.length)
        ∧ replacePath rep p n ≠ n := by
  intro p
  induction p with
  | nil => intro n t rep s fuel hp _ _ _; exact absurd rfl hp
  | cons i rest ih =>
      intro n t rep s fuel _ honly hrep hf
      cases n with
      | leaf m => exact absurd honly (by simp [OnlyAt])
      | node m cs =>
          have honly2 : Node.node m cs ≠ t ∧ i < cs.length ∧
              OnlyAt t rest (cs.getD i dfltNode) ∧
              ∀ j, j < cs.length → j ≠ i → t ∉ subtrees (cs.getD j dfltNode) := by
            simpa [OnlyAt] using honly
          obtain ⟨hne, hilen, hrest, hsib⟩ := honly2
          have h1 := one_le_depth (Node.node m cs)
          cases fuel with
          | zero => exact absurd hf (by omega)
          | succ f =>
              simp only [depth] at hf
              have hcimem : cs.getD i dfltNode ∈ cs := getD_mem dfltNode cs i hilen
              have hdci : depth (cs.getD i dfltNode) ≤ f :=
                le_trans (depth_le_depthList cs (cs.getD i dfltNode) hcimem) (by omega)
              have hchild : transformExceptCnt t (some rep, 0) f s (cs.getD i dfltNode)
                  = (some (replacePath rep rest (cs.getD i dfltNode)), rest.length)
                  ∧ replacePath rep rest (cs.getD i dfltNode) ≠ cs.getD i dfltNode := by
                cases rest with
                | nil =>
                    have hcit : cs.getD i dfltNode = t := by simpa [OnlyAt] using hrest
                    have hf1 : 1 ≤ f := le_trans (one_le_depth (cs.getD i dfltNode)) hdci
                    cases f with
                    | zero => exact absurd hf1 (by omega)
                    | succ f2 =>
                        rw [transformExceptCnt_succ, if_pos hcit]
                        refine ⟨rfl, ?_⟩
                        simp only [replacePath]
                        rw [hcit]
                        exact hrep
                | cons j rest2 =>
                    exact ih (cs.getD i dfltNode) t rep s f (by simp) hrest hrep hdci
              obtain ⟨hchildEq, hchildNe⟩ := hchild
              have hsibEq : ∀ j, j < cs.length → j ≠ i →
                  transformExceptCnt t (some rep, 0) f s (cs.getD j dfltNode)
                    = (some (cs.getD j dfltNode), 0) := by
                intro j hj hne2
                have hm : cs.getD j dfltNode ∈ cs := getD_mem dfltNode cs j hj
                have hd := depth_le_depthList cs (cs.getD j dfltNode) hm
                exact transformExceptCnt_id (depth (cs.getD j dfltNode)) _ le_rfl t
                  (some rep, 0) s f (by omega) (hsib j hj hne2)
              have hnotall :
                  ¬ ∀ c ∈ cs, (transformExceptCnt t (some rep, 0) f s c).1 = some c := by
                intro hall
                have hx := hall (cs.getD i dfltNode) hcimem
                rw [hchildEq] at hx
                exact hchildNe (by simpa using hx)
              have hfm : cs.filterMap (fun c => (transformExceptCnt t (some rep, 0) f s c).1)
                  = cs.set i (replacePath rep rest (cs.getD i dfltNode)) := by
                apply filterMap_eq_set _ dfltNode cs i _ hilen
                · intro j hj hne2
                  show (transformExceptCnt t (some rep, 0) f s (cs.getD j dfltNode)).1
                      = some (cs.getD j dfltNode)
                  rw [hsibEq j hj hne2]
                · show (transformExceptCnt t (some rep, 0) f s (cs.getD i dfltNode)).1
                      = some (replacePath rep rest (cs.getD i dfltNode))
                  rw [hchildEq]
              have hsum :
                  (cs.map (fun c => (transformExceptCnt t (some rep, 0) f s c).2)).sum
                    = rest.length := by
                apply map_sum_eq _ dfltNode cs i _ hilen
                · intro j hj hne2
                  show (transformExceptCnt t (some rep, 0) f s (cs.getD j dfltNode)).2 = 0
                  rw [hsibEq j hj hne2]
                · show (transformExceptCnt t (some rep, 0) f s (cs.getD i dfltNode)).2
                      = rest.length
                  rw [hchildEq]
              have hsetne : cs.set i (replacePath rep rest (cs.getD i dfltNode)) ≠ cs :=
                set_ne_of_getD _ dfltNode cs i hilen hchildNe
              have hfmne : cs.set i (replacePath rep rest (cs.getD i dfltNode)) ≠ [] := by
                intro he
                have hlen := congrArg List.length he
                rw [List.length_set] at hlen
                have hlen0 : cs.length = 0 := by simpa using hlen
                omega
              have hrpne : replacePath rep (i :: rest) (Node.node m cs) ≠ Node.node m cs := by
                simp only [replacePath]
                intro he
                simp only [Node.node.injEq] at he
                exact hsetne he.2
              refine ⟨?_, hrpne⟩
              rw [transformExceptCnt_succ, if_neg hne]
              simp only [traverseCnt_node_eq]
              rw [if_neg hnotall, hfm, if_neg hfmne, hsum]
              simp [replacePath]

/- Store arithmetic: reads and writes at distinct references do not
interfere, and appending to the store preserves all existing entries. -/

theorem getD_set_ne {β : Type} (x d : β) :
    ∀ (l : List β) (a r : Nat), a ≠ r → (l.set a x).getD r d = l.getD r d := by
  intro l
  induction l with
  | nil => intro a r _; simp
  | cons y ys ih =>
      intro a r h
      cases a with
      | zero =>
          cases r with
          | zero => exact absurd rfl h
          | succ r => simp
      | succ a =>
          cases r with
          | zero => simp
          | succ r => simpa using ih a r (by omega)

theorem getD_append_left {β : Type} (d : β) (t : List β) :
    ∀ (l : List β) (r : Nat), r < l.length → (l ++ t).getD r d = l.getD r d := by
  intro l
  induction l with
  | nil => intro r hr; simp at hr
  | cons y ys ih =>
      intro r hr
      cases r with
      | zero => simp
      | succ r => simpa using ih r (by simpa using hr)

theorem getD_append_self {β : Type} (d x : β) :
    ∀ l : List β, (l ++ [x]).getD l.length d = x := by
  intro l
  induction l with
  | nil => simp
  | cons y ys ih => simpa using ih

/- The store-level child loop never touches any array that existed before
the call (it only allocates a fresh accumulator and pushes onto it), and the
accumulator reference tracks the pure loop's accumulator value exactly. -/

theorem storeGo_inv (visit : Node → Ts → Option Node) (s : Ts) (rc : Nat) :
    ∀ (cs : List Node) (i : Nat) (σ σ0 : List (List Node)) (accRef : Option Nat)
      (acc : Option (List Node)),
      rc < σ0.length →
      σ0.length ≤ σ.length →
      (∀ r, r < σ0.length → storeGet σ r = storeGet σ0 r) →
      AccInv σ0.length σ accRef acc →
      σ0.length ≤ (traverseStoreGo visit s rc (σ, accRef) i cs).1.length ∧
      (∀ r, r < σ0.length →
        storeGet (traverseStoreGo visit s rc (σ, accRef) i cs).1 r = storeGet σ0 r) ∧
      AccInv σ0.length (traverseStoreGo visit s rc (σ, accRef) i cs).1
        (traverseStoreGo visit s rc (σ, accRef) i cs).2
        (traverseChildrenGo (storeGet σ0 rc) (transformStep visit s) acc i cs) := by
  intro cs
  induction cs with
  | nil =>
      intro i σ σ0 accRef acc _ hlen hframe hinv
      exact ⟨hlen, hframe, by simpa [traverseStoreGo, traverseChildrenGo] using hinv⟩
  | cons c cs2 ih =>
      intro i σ σ0 accRef acc hrc hlen hframe hinv
      have hfr : storeGet σ rc = storeGet σ0 rc := hframe rc hrc
      cases accRef with
      | none =>
          cases acc with
          | some l => exact absurd hinv (by simp [AccInv])
          | none =>
              cases hv : visit ((storeGet σ0 rc)[i]?.getD c) s with
              | none =>
                  have hstep : traverseStoreGo visit s rc (σ, none) i (c :: cs2)
                      = traverseStoreGo visit s rc
                          (σ ++ [(storeGet σ0 rc).take i], some σ.length) (i + 1) cs2 := by
                    rw [traverseStoreGo]
                    simp [hfr, hv]
                  have hpure : traverseChildrenGo (storeGet σ0 rc) (transformStep visit s)
                        none i (c :: cs2)
                      = traverseChildrenGo (storeGet σ0 rc) (transformStep visit s)
                          (some ((storeGet σ0 rc).take i)) (i + 1) cs2 := by
                    rw [traverseChildrenGo]
                    have hts : transformStep visit s none c i (storeGet σ0 rc)
                        = some ((storeGet σ0 rc).take i) := by
                      simp [transformStep, hv]
                    rw [hts]
                  rw [hstep, hpure]
                  apply ih (i + 1) (σ ++ [(storeGet σ0 rc).take i]) σ0 (some σ.length)
                    (some ((storeGet σ0 rc).take i)) hrc
                  · simpa using Nat.le_succ_of_le hlen
                  · intro r hr
                    rw [show storeGet (σ ++ [(storeGet σ0 rc).take i]) r = storeGet σ r from
                      getD_append_left [] _ σ r (by omega), hframe r hr]
                  · refine ⟨hlen, by simp, ?_⟩
                    exact getD_append_self [] _ σ
              | some c2 =>
                  by_cases hc2 : c2 = (storeGet σ0 rc)[i]?.getD c
                  · -- unchanged child: accumulator stays unstarted
                    have hstep : traverseStoreGo visit s rc (σ, none) i (c :: cs2)
                        = traverseStoreGo visit s rc (σ, none) (i + 1) cs2 := by
                      rw [traverseStoreGo]
                      simp [hfr, hv, hc2]
                    have hpure : traverseChildrenGo (storeGet σ0 rc) (transformStep visit s)
                          none i (c :: cs2)
                        = traverseChildrenGo (storeGet σ0 rc) (transformStep visit s)
                            none (i + 1) cs2 := by
                      rw [traverseChildrenGo]
                      have hts : transformStep visit s none c i (storeGet σ0 rc) = none := by
                        simp [transformStep, hv, hc2]
                      rw [hts]
                    rw [hstep, hpure]
                    exact ih (i + 1) σ σ0 none none hrc hlen hframe (by simp [AccInv])
                  · -- changed child: allocate the accumulator and push
                    have hstep : traverseStoreGo visit s rc (σ, none) i (c :: cs2)
                        = traverseStoreGo visit s rc
                            (σ ++ [(storeGet σ0 rc).take i ++ [c2]], some σ.length)
                            (i + 1) cs2 := by
                      rw [traverseStoreGo]
                      have hga : storeGet (σ ++ [(storeGet σ0 rc).take i]) σ.length
                          = (storeGet σ0 rc).take i := getD_append_self [] _ σ
                      simp [hfr, hv, hc2, hga]
                    have hpure : traverseChildrenGo (storeGet σ0 rc) (transformStep visit s)
                          none i (c :: cs2)
                        = traverseChildrenGo (storeGet σ0 rc) (transformStep visit s)
                            (some ((storeGet σ0 rc).take i ++ [c2])) (i + 1) cs2 := by
                      rw [traverseChildrenGo]
                      have hts : transformStep visit s none c i (storeGet σ0 rc)
                          = some ((storeGet σ0 rc).take i ++ [c2]) := by
                        simp [transformStep, hv, hc2]
                      rw [hts]
                    rw [hstep, hpure]
                    apply ih (i + 1) _ σ0 (some σ.length)
                      (some ((storeGet σ0 rc).take i ++ [c2])) hrc
                    · simpa using Nat.le_succ_of_le hlen
                    · intro r hr
                      rw [show storeGet (σ ++ [(storeGet σ0 rc).take i ++ [c2]]) r
                          = storeGet σ r from
                        getD_append_left [] _ σ r (by omega), hframe r hr]
                    · refine ⟨hlen, by simp, ?_⟩
                      exact getD_append_self [] _ σ
      | some a =>
          cases acc with
          | none => exact absurd hinv (by simp [AccInv])
          | some l =>
              obtain ⟨hb0, hb1, hb2⟩ := hinv
              cases hv : visit ((storeGet σ0 rc)[i]?.getD c) s with
              | none =>
                  have hstep : traverseStoreGo visit s rc (σ, some a) i (c :: cs2)
                      = traverseStoreGo visit s rc (σ, some a) (i + 1) cs2 := by
                    rw [traverseStoreGo]
                    simp [hfr, hv]
                  have hpure : traverseChildrenGo (storeGet σ0 rc) (transformStep visit s)
                        (some l) i (c :: cs2)
                      = traverseChildrenGo (storeGet σ0 rc) (transformStep visit s)
                          (some l) (i + 1) cs2 := by
                    rw [traverseChildrenGo]
                    have hts : transformStep visit s (some l) c i (storeGet σ0 rc)
                        = some l := by
                      simp [transformStep, hv]
                    rw [hts]
                  rw [hstep, hpure]
                  exact ih (i + 1) σ σ0 (some a) (some l) hrc hlen hframe ⟨hb0, hb1, hb2⟩
              | some c2 =>
                  have hstep : traverseStoreGo visit s rc (σ, some a) i (c :: cs2)
                      = traverseStoreGo visit s rc (σ.set a (l ++ [c2]), some a)
                          (i + 1) cs2 := by
                    rw [traverseStoreGo]
                    by_cases hc2 : c2 = (storeGet σ0 rc)[i]?.getD c
                    · simp [hfr, hv, hc2, hb2]
                    · simp [hfr, hv, hc2, hb2]
                  have hpure : traverseChildrenGo (storeGet σ0 rc) (transformStep visit s)
                        (some l) i (c :: cs2)
                      = traverseChildrenGo (storeGet σ0 rc) (transformStep visit s)
                          (some (l ++ [c2])) (i + 1) cs2 := by
                    rw [traverseChildrenGo]
                    have hts : transformStep visit s (some l) c i (storeGet σ0 rc)
                        = some (l ++ [c2]) := by
                      by_cases hc2 : c2 = (storeGet σ0 rc)[i]?.getD c
                      · simp [transformStep, hv, hc2]
                      · simp [transformStep, hv, hc2]
                    rw [hts]
                  rw [hstep, hpure]
                  apply ih (i + 1) (σ.set a (l ++ [c2])) σ0 (some a) (some (l ++ [c2])) hrc
                  · simpa using hlen
                  · intro r hr
                    rw [show storeGet (σ.set a (l ++ [c2])) r = storeGet σ r from
                      getD_set_ne _ [] σ a r (by omega), hframe r hr]
                  · exact ⟨hb0, by simpa using hb1, getD_set_self _ [] σ a hb1⟩

/- Further indexed-prefix helpers (used by the accumulator claim). -/

theorem mem_take_getD {β : Type} (d : β) :
    ∀ (l : List β) (k : Nat) (c : β), c ∈ l.take k →
      ∃ j, j < k ∧ j < l.length ∧ l.getD j d = c := by
  intro l
  induction l with
  | nil => intro k c hc; simp at hc
  | cons a as ih =>
      intro k c hc
      cases k with
      | zero => simp at hc
      | succ k =>
          rcases List.mem_cons.1 (by simpa using hc) with h0 | h1
          · exact ⟨0, by omega, by simp, by simp [h0]⟩
          · rcases ih k c h1 with ⟨j, hj1, hj2, hj3⟩
            exact ⟨j + 1, by omega, by simpa using hj2, by simpa using hj3⟩

theorem getD_mem_take {β : Type} (d : β) :
    ∀ (l : List β) (i k : Nat), i < k → i < l.length → l.getD i d ∈ l.take k := by
  intro l
  induction l with
  | nil => intro i k _ h2; simp at h2
  | cons a as ih =>
      intro i k h1 h2
      cases i with
      | zero =>
          cases k with
          | zero => omega
          | succ k => simp
      | succ i =>
          cases k with
          | zero => omega
          | succ k =>
              rw [List.take_succ_cons, List.getD_cons_succ]
              exact List.mem_cons_of_mem a (ih i k (by omega) (by simpa using h2))

theorem take_succ_getD {β : Type} (d : β) (l : List β) (i : Nat) (hi : i < l.length) :
    l.take (i + 1) = l.take i ++ [l.getD i d] := by
  cases hdi : l.drop i with
  | nil =>
      have hlen := List.length_drop i l
      rw [hdi] at hlen
      simp at hlen
      omega
  | cons c tl =>
      rw [take_succ_of_drop i l c tl hdi, getD_of_drop d i l c tl hdi]

/-- Claim C1: identity preservation.  If `visit` returns the exact same
reference as the original child for every child of the node (and allocates
nothing), then `traverse` returns the exact same reference as the node and
performs no `clone`.  This covers leaves and childless composites
vacuously. -/
theorem identity_preservation (v : Node → Ts → Option Node) (s : Ts) (n : Node)
    (h : ∀ c ∈ n.children, v c s = some c) :
    traverse v n s = some n
      ∧ traverseCnt (fun c t => (v c t, 0)) n s = (some n, 0) := by
  cases n with
  | leaf m => exact ⟨traverse_leaf v m s, traverseCnt_leaf _ m s⟩
  | node m cs =>
      have hcs : ∀ c ∈ cs, v c s = some c := by
        intro c hc; exact h c (by simpa [Node.children] using hc)
      constructor
      · rw [traverse_node_eq, if_pos hcs]
      · have hc2 : traverseCnt (fun c t => (v c t, 0)) (Node.node m cs) s
            = if ∀ c ∈ cs, v c s = some c then
                (some (Node.node m cs), (cs.map (fun _ => (0 : Nat))).sum)
              else if cs.filterMap (fun c => v c s) = [] then
                (none, (cs.map (fun _ => (0 : Nat))).sum)
              else
                (some (Node.node m (cs.filterMap (fun c => v c s))),
                 (cs.map (fun _ => (0 : Nat))).sum + 1) :=
          traverseCnt_node_eq (fun c t => (v c t, 0)) m cs s
        rw [hc2, if_pos hcs]
        simp

/-- Claim C2: cascading deletion.  For a node with children `[A, B, C]`
where `visit` deletes `B` alone, `traverse` yields a clone with children
`[A, C]` (a new node, not the original); for a node with children `[D]`
where `visit` deletes `D`, `traverse` yields nothing rather than a node
with no children. -/
theorem cascading_deletion (v : Node → Ts → Option Node) (s : Ts)
    (n n2 A B C D : Node)
    (hch : n.children = [A, B, C])
    (hA : v A s = some A) (hB : v B s = none) (hC : v C s = some C)
    (hch2 : n2.children = [D]) (hD : v D s = none) :
    traverse v n s = some (n.clone [A, C]) ∧ n.clone [A, C] ≠ n
      ∧ traverse v n2 s = none := by
  cases n with
  | leaf m => simp [Node.children] at hch
  | node m cs =>
      have hcs : cs = [A, B, C] := by simpa [Node.children] using hch
      subst hcs
      cases n2 with
      | leaf m2 => simp [Node.children] at hch2
      | node m2 cs2 =>
          have hcs2 : cs2 = [D] := by simpa [Node.children] using hch2
          subst hcs2
          refine ⟨?_, ?_, ?_⟩
          · rw [traverse_node_eq]
            have hnot : ¬ ∀ c ∈ [A, B, C], v c s = some c := by
              intro hall
              have hx := hall B (by simp)
              rw [hB] at hx
              exact Option.noConfusion hx
            rw [if_neg hnot]
            have hfm : [A, B, C].filterMap (fun c => v c s) = [A, C] := by
              simp [List.filterMap_cons, hA, hB, hC]
            rw [hfm, if_neg (by simp)]
            rfl
          · intro he
            simp only [Node.clone, Node.node.injEq] at he
            have hl := congrArg List.length he.2
            simp at hl
          · rw [traverse_node_eq]
            have hnot : ¬ ∀ c ∈ [D], v c s = some c := by
              intro hall
              have hx := hall D (by simp)
              rw [hD] at hx
              exact Option.noConfusion hx
            rw [if_neg hnot]
            have hfm : [D].filterMap (fun c => v c s) = [] := by
              simp [List.filterMap_cons, hD]
            rw [hfm, if_pos rfl]

/-- Claim C3: order preservation.  Whenever `traverse` returns a node, its
children are exactly the surviving visit results of the original children,
in the original relative order (the order-preserving `filterMap`): no
reordering, duplication, or insertion. -/
theorem order_preservation (v : Node → Ts → Option Node) (s : Ts) (n x : Node)
    (h : traverse v n s = some x) :
    x.children = n.children.filterMap (fun c => v c s) := by
  cases n with
  | leaf m =>
      have hx : Node.leaf m = x := by
        rw [traverse_leaf] at h
        exact Option.some.inj h
      rw [← hx]
      rfl
  | node m cs =>
      rw [traverse_node_eq] at h
      by_cases hk : ∀ c ∈ cs, v c s = some c
      · rw [if_pos hk] at h
        have hx : Node.node m cs = x := Option.some.inj h
        rw [← hx]
        show cs = cs.filterMap (fun c => v c s)
        exact (filterMap_id_of_keeps _ cs hk).symm
      · rw [if_neg hk] at h
        by_cases hfm : cs.filterMap (fun c => v c s) = []
        · rw [if_pos hfm] at h
          exact Option.noConfusion h
        · rw [if_neg hfm] at h
          have hx : Node.node m (cs.filterMap (fun c => v c s)) = x := Option.some.inj h
          rw [← hx]
          rfl

/-- Claim C4: leaf invariance.  A node that cannot have subselections is
returned unchanged by `traverse`, whatever the visit function and the state
(the definition returns before any children-related operation). -/
theorem leaf_invariance (v : Node → Ts → Option Node) (s : Ts) (n : Node)
    (h : n.canHaveSubselections = false) :
    traverse v n s = some n := by
  cases n with
  | leaf m => exact traverse_leaf v m s
  | node m cs => simp [Node.canHaveSubselections] at h

/-- Claim C7: idempotence of the default no-op transform.  Applying the
identity transform (every handler delegates to `traverse`) twice yields the
same result as applying it once, for any tree and fuel covering its depth. -/
theorem noop_idempotent (s : Ts) (n : Node) (fuel : Nat) (h : depth n ≤ fuel) :
    (visitDef fuel s n).bind (visitDef fuel s) = visitDef fuel s n := by
  have hid := visitDef_id (depth n) n le_rfl s fuel h
  rw [hid]
  simpa using hid

/-- Claim C8: termination and recursion depth.  The mutually recursive
`visit`/`traverse` computation is fully determined by a stack allowance of
one frame per tree level: for every handler layer, any fuel at least the
tree's depth gives the same result as fuel exactly the tree's depth. -/
theorem recursion_depth_bound (h : Node → Ts → Option Node → Option Node) (s : Ts)
    (n : Node) (fuel : Nat) (hf : depth n ≤ fuel) :
    visitWith h fuel s n = visitWith h (depth n) s n :=
  visitWith_stable_aux (depth n) n le_rfl h s fuel (depth n) hf le_rfl

/-- Claim C5: accumulator discipline.  If the children at positions
`0 … i-1` are returned unchanged by `visit` and the child at position `i` is
the first to differ, then after processing `i + 1` children the accumulator
has been started as a copy of the original children up to (excluding) `i`,
followed by the differing result if present (omitted if it is a deletion);
and after any `k > i` children the accumulator — never re-started — holds
exactly the surviving visit results of the first `k` children. -/
theorem accumulator_first_diff (v : Node → Ts → Option Node) (s : Ts)
    (children : List Node) (i : Nat) (hi : i < children.length)
    (hpre : ∀ j, j < i → v (children.getD j dfltNode) s = some (children.getD j dfltNode))
    (hdiff : v (children.getD i dfltNode) s ≠ some (children.getD i dfltNode)) :
    traverseChildrenGo children (transformStep v s) none 0 (children.take (i + 1))
        = some (children.take i ++ (v (children.getD i dfltNode) s).toList)
      ∧ ∀ k, i < k → k ≤ children.length →
          traverseChildrenGo children (transformStep v s) none 0 (children.take k)
            = some ((children.take k).filterMap (fun c => v c s)) := by
  have hkeepPre : ∀ c ∈ children.take i, v c s = some c := by
    intro c hc
    rcases mem_take_getD dfltNode children i c hc with ⟨j, hj1, _, hj3⟩
    rw [← hj3]
    exact hpre j hj1
  have hfmPre : (children.take i).filterMap (fun c => v c s) = children.take i :=
    filterMap_id_of_keeps _ _ hkeepPre
  have hts : children.take (i + 1) = children.take i ++ [children.getD i dfltNode] :=
    take_succ_getD dfltNode children i hi
  constructor
  · have hnot : ¬ ∀ c ∈ (children.drop 0).take (i + 1), v c s = some c := by
      rw [List.drop_zero]
      intro hall
      exact hdiff (hall _ (getD_mem_take dfltNode children i (i + 1) (by omega) hi))
    have hgo := go_none_of_changed v s children (i + 1) 0 hnot
    rw [List.drop_zero] at hgo
    rw [hgo, List.take_zero, List.nil_append, hts, List.filterMap_append, hfmPre]
    have hone : List.filterMap (fun c => v c s) [children.getD i dfltNode]
        = (v (children.getD i dfltNode) s).toList := by
      cases hv : v (children.getD i dfltNode) s with
      | none => rw [List.filterMap_cons, hv]; rfl
      | some c2 => rw [List.filterMap_cons, hv]; rfl
    rw [hone]
  · intro k hk1 hk2
    have hnot : ¬ ∀ c ∈ (children.drop 0).take k, v c s = some c := by
      rw [List.drop_zero]
      intro hall
      exact hdiff (hall _ (getD_mem_take dfltNode children i k hk1 hi))
    have hgo := go_none_of_changed v s children k 0 hnot
    rw [List.drop_zero] at hgo
    rw [hgo, List.take_zero, List.nil_append]

/-- Claim C6 (amended): structural sharing of a single-point rewrite.  When
the handlers are the default ones except at one node `t` sitting at path `p`
(depth `d = p.length ≥ 1`) and the handler there returns a fresh replacement
`rep`, the output is the functional replacement along the path — every
off-path sibling subtree is shared as the very same value — and exactly `d`
new nodes are created via `clone`, one per ancestor on the changed node's
parent chain up to the root (the replacement itself is supplied by the
handler, not produced by `clone`). -/
theorem structural_sharing_amended (p : List Nat) (n t rep : Node) (s : Ts)
    (fuel : Nat) (hp : p ≠ []) (ho : OnlyAt t p n) (hrep : rep ≠ t)
    (hf : depth n ≤ fuel) :
    transformExceptCnt t (some rep, 0) fuel s n
        = (some (replacePath rep p n), p.length)
      ∧ replacePath rep p n ≠ n :=
  transformExcept_sharing_aux p n t rep s fuel hp ho hrep hf

/-- Claim C6 (counterexample to the stated count): replacing the single
descendant at depth `d = 1` of a one-child root performs exactly one
`clone` (of the root), not `d + 1 = 2` — the replacement node is allocated
by the handler, not by `clone`, so the clone count is `d`, not `d + 1`. -/
theorem structural_sharing_counterexample :
    OnlyAt (Node.leaf 1) [0] (Node.node 0 [Node.leaf 1])
    ∧ transformExceptCnt (Node.leaf 1) (some (Node.leaf 2), 0) 2 (0 : Nat)
        (Node.node 0 [Node.leaf 1])
      = (some (Node.node 0 [Node.leaf 2]), 1)
    ∧ (1 : Nat) ≠ List.length [0] + 1 := by
  refine ⟨?_, by decide, by decide⟩
  simp [OnlyAt, dfltNode, subtrees]

/-- Claim C9: input immutability (frame condition).  Running the child loop
of `traverse` against an explicit array heap — where `slice` allocates a
fresh array and `push` mutates the accumulator in place, exactly as in the
source — leaves every array that existed before the call (in particular the
input node's children array at `rc`) bitwise unchanged, for every visit
function and state; and the accumulator array it may allocate holds exactly
the pure loop's accumulator value. -/
theorem input_immutability (v : Node → Ts → Option Node) (s : Ts)
    (σ0 : List (List Node)) (rc : Nat) (hrc : rc < σ0.length) :
    (∀ r, r < σ0.length → storeGet (traverseStore v s rc σ0).1 r = storeGet σ0 r)
    ∧ accValue (traverseStore v s rc σ0).1 (traverseStore v s rc σ0).2
        = traverseChildrenGo (storeGet σ0 rc) (transformStep v s) none 0
            (storeGet σ0 rc) := by
  have hinv := storeGo_inv v s rc (storeGet σ0 rc) 0 σ0 σ0 none none hrc le_rfl
    (fun _ _ => rfl) (by simp [AccInv])
  have hdef : traverseStore v s rc σ0
      = traverseStoreGo v s rc (σ0, none) 0 (storeGet σ0 rc) := rfl
  obtain ⟨_, h2, h3⟩ := hinv
  rw [hdef]
  refine ⟨h2, ?_⟩
  cases hp : traverseChildrenGo (storeGet σ0 rc) (transformStep v s) none 0
      (storeGet σ0 rc) with
  | none =>
      cases ha : (traverseStoreGo v s rc (σ0, none) 0 (storeGet σ0 rc)).2 with
      | none => simp [accValue]
      | some a =>
          rw [ha, hp] at h3
          exact absurd h3 (by simp [AccInv])
  | some l =>
      cases ha : (traverseStoreGo v s rc (σ0, none) 0 (storeGet σ0 rc)).2 with
      | none =>
          rw [ha, hp] at h3
          exact absurd h3 (by simp [AccInv])
      | some a =>
          rw [ha, hp] at h3
          obtain ⟨_, _, hval⟩ := h3
          simp [accValue, hval]

/-- Claim C10: clone discipline and result shape.  Each `traverse` call
invokes `clone` at most once and never with an empty children sequence: the
result is exactly the original node with zero own clones, or nothing with
zero own clones, or `clone` of the node with a non-empty accumulated
children sequence and exactly one own clone; and the call returns nothing
only when the node had children and every child's visit result was
nothing. -/
theorem clone_discipline (v : Node → Ts → Option Node) (s : Ts) (n : Node) :
    (traverseCnt (fun c t => (v c t, 0)) n s).1 = traverse v n s
    ∧ (traverseCnt (fun c t => (v c t, 0)) n s = (some n, 0)
       ∨ traverseCnt (fun c t => (v c t, 0)) n s = (none, 0)
       ∨ ∃ l, l ≠ [] ∧ traverseCnt (fun c t => (v c t, 0)) n s = (some (n.clone l), 1))
    ∧ (traverse v n s = none → n.children ≠ [] ∧ ∀ c ∈ n.children, v c s = none) := by
  cases n with
  | leaf m =>
      refine ⟨rfl, Or.inl (traverseCnt_leaf _ m s), ?_⟩
      intro hnone
      rw [traverse_leaf] at hnone
      exact Option.noConfusion hnone
  | node m cs =>
      have hzero : (cs.map (fun _ => (0 : Nat))).sum = 0 := by simp
      have hc2 : traverseCnt (fun c t => (v c t, 0)) (Node.node m cs) s
          = if ∀ c ∈ cs, v c s = some c then
              (some (Node.node m cs), (cs.map (fun _ => (0 : Nat))).sum)
            else if cs.filterMap (fun c => v c s) = [] then
              (none, (cs.map (fun _ => (0 : Nat))).sum)
            else
              (some (Node.node m (cs.filterMap (fun c => v c s))),
               (cs.map (fun _ => (0 : Nat))).sum + 1) :=
        traverseCnt_node_eq (fun c t => (v c t, 0)) m cs s
      rw [hzero] at hc2
      have ht := traverse_node_eq v m cs s
      by_cases hk : ∀ c ∈ cs, v c s = some c
      · rw [if_pos hk] at hc2 ht
        refine ⟨by rw [hc2, ht], Or.inl hc2, ?_⟩
        intro hnone
        rw [ht] at hnone
        exact Option.noConfusion hnone
      · rw [if_neg hk] at hc2 ht
        by_cases hfm : cs.filterMap (fun c => v c s) = []
        · rw [if_pos hfm] at hc2 ht
          refine ⟨by rw [hc2, ht], Or.inr (Or.inl hc2), ?_⟩
          intro _
          constructor
          · intro hcs
            subst hcs
            exact hk (by intro c hc; simp at hc)
          · intro c hc
            have hall := List.filterMap_eq_nil_iff.1 hfm
            exact hall c (by simpa [Node.children] using hc)
        · rw [if_neg hfm] at hc2 ht
          refine ⟨by rw [hc2, ht], Or.inr (Or.inr ⟨cs.filterMap (fun c => v c s), hfm, ?_⟩), ?_⟩
          · rw [hc2]
            rfl
          · intro hnone
            rw [ht] at hnone
            exact Option.noConfusion hnone

/- Concrete witnesses: each theorem with hypotheses evaluated at a concrete
input, with every hypothesis discharged by computation. -/

theorem identity_preservation_witness :
    (∀ c ∈ (Node.node 0 [Node.leaf 1, Node.leaf 2]).children,
        (fun (c : Node) (_ : Nat) => some c) c 0 = some c)
    ∧ traverse (fun (c : Node) (_ : Nat) => some c)
        (Node.node 0 [Node.leaf 1, Node.leaf 2]) 0
      = some (Node.node 0 [Node.leaf 1, Node.leaf 2]) :=
  ⟨by decide,
   (identity_preservation (fun c _ => some c) 0
     (Node.node 0 [Node.leaf 1, Node.leaf 2]) (by decide)).1⟩

theorem cascading_deletion_witness :
    traverse (fun (c : Node) (_ : Nat) => if c = Node.leaf 2 then none else some c)
        (Node.node 0 [Node.leaf 1, Node.leaf 2, Node.leaf 3]) 0
      = some ((Node.node 0 [Node.leaf 1, Node.leaf 2, Node.leaf 3]).clone
          [Node.leaf 1, Node.leaf 3])
    ∧ (Node.node 0 [Node.leaf 1, Node.leaf 2, Node.leaf 3]).clone
          [Node.leaf 1, Node.leaf 3]
        ≠ Node.node 0 [Node.leaf 1, Node.leaf 2, Node.leaf 3]
    ∧ traverse (fun (c : Node) (_ : Nat) => if c = Node.leaf 2 then none else some c)
        (Node.node 7 [Node.leaf 2]) 0
      = none :=
  cascading_deletion (fun c _ => if c = Node.leaf 2 then none else some c) 0
    (Node.node 0 [Node.leaf 1, Node.leaf 2, Node.leaf 3]) (Node.node 7 [Node.leaf 2])
    (Node.leaf 1) (Node.leaf 2) (Node.leaf 3) (Node.leaf 2)
    (by decide) (by decide) (by decide) (by decide) (by decide) (by decide)

theorem order_preservation_witness :
    (Node.node 0 [Node.leaf 1, Node.leaf 3]).children
      = (Node.node 0 [Node.leaf 1, Node.leaf 2, Node.leaf 3]).children.filterMap
          (fun c => (fun (c : Node) (_ : Nat) =>
            if c = Node.leaf 2 then none else some c) c 0) :=
  order_preservation (fun c _ => if c = Node.leaf 2 then none else some c) 0
    (Node.node 0 [Node.leaf 1, Node.leaf 2, Node.leaf 3])
    (Node.node 0 [Node.leaf 1, Node.leaf 3]) (by decide)

theorem leaf_invariance_witness :
    (Node.leaf 5).canHaveSubselections = false
    ∧ traverse (fun (_ : Node) (_ : Nat) => none) (Node.leaf 5) 0
      = some (Node.leaf 5) :=
  ⟨rfl, leaf_invariance (fun _ _ => none) 0 (Node.leaf 5) rfl⟩

theorem accumulator_first_diff_witness :
    (1 < ([Node.leaf 1, Node.leaf 2, Node.leaf 3] : List Node).length)
    ∧ traverseChildrenGo [Node.leaf 1, Node.leaf 2, Node.leaf 3]
        (transformStep
          (fun (c : Node) (_ : Nat) => if c = Node.leaf 2 then none else some c) 0)
        none 0 ([Node.leaf 1, Node.leaf 2, Node.leaf 3].take 2)
      = some [Node.leaf 1] :=
  ⟨by decide,
   (accumulator_first_diff
     (fun c _ => if c = Node.leaf 2 then none else some c) 0
     [Node.leaf 1, Node.leaf 2, Node.leaf 3] 1
     (by decide) (by decide) (by decide)).1⟩

theorem structural_sharing_amended_witness :
    OnlyAt (Node.leaf 3) [1, 0]
      (Node.node 0 [Node.leaf 1, Node.node 2 [Node.leaf 3, Node.leaf 4]])
    ∧ transformExceptCnt (Node.leaf 3) (some (Node.leaf 9), 0) 3 (0 : Nat)
        (Node.node 0 [Node.leaf 1, Node.node 2 [Node.leaf 3, Node.leaf 4]])
      = (some (Node.node 0 [Node.leaf 1, Node.node 2 [Node.leaf 9, Node.leaf 4]]), 2) := by
  have ho : OnlyAt (Node.leaf 3) [1, 0]
      (Node.node 0 [Node.leaf 1, Node.node 2 [Node.leaf 3, Node.leaf 4]]) := by
    simp [OnlyAt, dfltNode]
    exact ⟨by decide, by decide⟩
  refine ⟨ho, ?_⟩
  have h := (structural_sharing_amended [1, 0]
    (Node.node 0 [Node.leaf 1, Node.node 2 [Node.leaf 3, Node.leaf 4]])
    (Node.leaf 3) (Node.leaf 9) 0 3 (by decide) ho (by decide) (by decide)).1
  exact h

theorem noop_idempotent_witness :
    depth (Node.node 0 [Node.leaf 1]) ≤ 2
    ∧ (visitDef 2 (0 : Nat) (Node.node 0 [Node.leaf 1])).bind (visitDef 2 0)
      = visitDef 2 0 (Node.node 0 [Node.leaf 1]) :=
  ⟨by decide, noop_idempotent 0 (Node.node 0 [Node.leaf 1]) 2 (by decide)⟩

theorem recursion_depth_bound_witness :
    depth (Node.node 0 [Node.leaf 1]) ≤ 5
    ∧ visitWith (fun (_ : Node) (_ : Nat) (r : Option Node) => r) 5 0
        (Node.node 0 [Node.leaf 1])
      = visitWith (fun (_ : Node) (_ : Nat) (r : Option Node) => r)
          (depth (Node.node 0 [Node.leaf 1])) 0 (Node.node 0 [Node.leaf 1]) :=
  ⟨by decide,
   recursion_depth_bound (fun _ _ r => r) 0 (Node.node 0 [Node.leaf 1]) 5 (by decide)⟩

theorem input_immutability_witness :
    storeGet (traverseStore (fun (_ : Node) (_ : Nat) => none) 0 0 [[Node.leaf 1]]).1 0
      = storeGet [[Node.leaf 1]] 0
    ∧ accValue (traverseStore (fun (_ : Node) (_ : Nat) => none) 0 0 [[Node.leaf 1]]).1
        (traverseStore (fun (_ : Node) (_ : Nat) => none) 0 0 [[Node.leaf 1]]).2
      = traverseChildrenGo (storeGet [[Node.leaf 1]] 0)
          (transformStep (fun (_ : Node) (_ : Nat) => none) 0) none 0
          (storeGet [[Node.leaf 1]] 0) := by
  have h := input_immutability (fun (_ : Node) (_ : Nat) => none) 0 [[Node.leaf 1]] 0
    (by decide)
  exact ⟨h.1 0 (by decide), h.2⟩

theorem clone_discipline_witness :
    (traverseCnt (fun (_ : Node) (_ : Nat) => ((none : Option Node), 0))
        (Node.node 0 [Node.leaf 1]) 0).1
      = traverse (fun (_ : Node) (_ : Nat) => (none : Option Node))
          (Node.node 0 [Node.leaf 1]) 0 :=
  (clone_discipline (fun _ _ => none) 0 (Node.node 0 [Node.leaf 1])).1

end Relay
